import Mathlib

/-!
A shallow embedding of the request-validation / preparation pipeline of the
`videoxt` library (`videoxt/utils.py`, `videoxt/validators.py`,
`videoxt/preppers.py`, `videoxt/requestors.py`), together with proofs about
its behaviour.

Modelling conventions:
* Python strings are modelled as `List Char`.
* Python `float` arithmetic is modelled over `ℚ`; every quantity the pipeline
  manipulates (seconds, fps, frame numbers) is produced by parsing decimal
  strings or by exact arithmetic on small values, so rational arithmetic is
  faithful on the inputs of interest.
* Fallible Python code (functions that may raise) returns `Except PyError _`;
  `Option` marks a value that may fail to parse.
-/

namespace Videoxt

/-- The exceptions the modelled code can raise: the library's
`ValidationError` and `PreparationError`, and the Python built-ins
`ValueError` and `AttributeError` (`ZeroDivisionError` is caught at its only
raise site and re-raised as `PreparationError`). -/
inductive PyError where
  | validationError
  | preparationError
  | valueError
  | attributeError
  deriving DecidableEq

/-- Python `s.split(sep)` for a single-character separator `c`: split the
character list at every occurrence of `c`, keeping empty pieces
(`"".split(c) == [""]`). -/
def splitOnChar (c : Char) : List Char → List (List Char)
  | [] => [[]]
  | x :: xs =>
    let r := splitOnChar c xs
    if x = c then [] :: r else (x :: r.headD []) :: r.tail


/-- The decimal digit character for `n` (used by Python's integer
rendering). -/
def digitChar (n : ℕ) : Char := Char.ofNat (48 + n)

/-- Helper for `natChars`.  The first argument is recursion fuel; it is
consumed once per decimal digit, so any fuel above the digit count gives the
exact decimal rendering. -/
def natCharsAux : ℕ → ℕ → List Char
  | 0, _ => []
  | fuel + 1, n =>
    if n < 10 then [digitChar n]
    else natCharsAux fuel (n / 10) ++ [digitChar (n % 10)]

/-- Python `str(n)` (equivalently `f"{n}"`) for a non-negative integer `n`,
as a character list. -/
def natChars (n : ℕ) : List Char := natCharsAux (n + 1) n


/-- The regex character class `[0-9]` (and Python's decimal-digit test),
by code point. -/
def isDigitChar (c : Char) : Bool := 48 ≤ c.toNat && c.toNat ≤ 57

/-- The regex character class `[0-5]`, by code point. -/
def isZeroToFive (c : Char) : Bool := 48 ≤ c.toNat && c.toNat ≤ 53

/-- The numeric value Python's `int`/`float` parsing assigns to a string of
decimal digits. -/
def digitsVal (l : List Char) : ℕ := l.foldl (fun a c => 10 * a + (c.toNat - 48)) 0

/-- `True` iff the list is a non-empty string of decimal digits. -/
def allDigits (l : List Char) : Bool := !l.isEmpty && l.all isDigitChar

/-- Python `float(s)`, modelled on the inputs the timestamp pipeline feeds
it: a non-empty string of decimal digits parses to its (exact) numeric
value; anything else is treated as a parse failure (`ValueError`), returned
as `none`. -/
def pyFloat (l : List Char) : Option ℚ :=
  if allDigits l then some (digitsVal l) else none

/-- `videoxt.utils.timestamp_to_seconds`: truncate at the first `'.'`, split
on `':'` and sum `float(part) * 60 ** exponent` over the reversed parts.
`none` models the `ValueError` Python raises when a part is not numeric. -/
def timestamp_to_seconds (timestamp : List Char) : Option ℚ := do
  let t := (splitOnChar '.' timestamp).headD []
  let time_parts := splitOnChar ':' t
  let vals ← time_parts.mapM pyFloat
  pure ((vals.reverse.enum.map fun e => e.2 * (60 : ℚ) ^ e.1).sum)

/-- `f"{n:02}"`: the two-digit zero-padded rendering `str(timedelta)` uses
for minutes and seconds. -/
def twoDigitChars (n : ℕ) : List Char :=
  if n < 10 then '0' :: natChars n else natChars n

/-- Python `str(datetime.timedelta(seconds=n))` for a non-negative whole
number of seconds: `"H:MM:SS"` with unpadded hours, preceded by a day count
when `n ≥ 86400`. -/
def timedeltaStr (n : ℕ) : List Char :=
  let hms := natChars (n % 86400 / 3600) ++ ':' :: twoDigitChars (n % 3600 / 60)
    ++ ':' :: twoDigitChars (n % 60)
  let days := n / 86400
  if days = 0 then hms
  else natChars days ++ (if days = 1 then " day, ".data else " days, ".data) ++ hms

/-- `videoxt.utils.seconds_to_timestamp`: `"0:00:00"` for non-positive
input, otherwise `str(timedelta(seconds=int(seconds)))` (for positive input
Python's `int` truncation is the floor). -/
def seconds_to_timestamp (seconds : ℚ) : List Char :=
  if seconds ≤ 0 then "0:00:00".data
  else timedeltaStr (Int.toNat ⌊seconds⌋)

/-- `videoxt.validators.valid_extraction_range`: clamp `stop` down to
`duration` and `start` up to `0`, raise when the clamped range is empty or
starts past the end, otherwise return the clamped triple. -/
def valid_extraction_range (start stop duration : ℚ) : Except PyError (ℚ × ℚ × ℚ) :=
  let stop := if stop > duration then duration else stop
  let start := if start < 0 then 0 else start
  if start ≥ duration then .error .validationError
  else if stop ≤ start then .error .validationError
  else .ok (start, stop, duration)

/-- A requested time value: a number (Python `float | int`) or a timestamp
string. -/
inductive TimeValue where
  | num (q : ℚ)
  | ts (s : List Char)
  deriving DecidableEq

/-- `_prepare_start_second` / the conversion step of `_prepare_stop_second`:
numbers pass through `float()`, strings through `timestamp_to_seconds`
(whose parse failure raises `ValueError`, modelled by `none`). -/
def prepareSecond : TimeValue → Option ℚ
  | .num q => some q
  | .ts s => timestamp_to_seconds s

/-- The fields of `videoxt.preppers.ExtractionRange` after `__post_init__`
has completed. -/
structure ExtractionRange where
  duration_seconds : ℚ
  frame_count : ℕ
  start_time : TimeValue
  stop_time : TimeValue
  fps : ℚ
  start_second : ℚ
  stop_second : ℚ
  start_timestamp : List Char
  stop_timestamp : List Char
  start_frame : ℤ
  stop_frame : ℤ
  deriving DecidableEq

/-- `ExtractionRange.__post_init__`: resolve the requested start and stop to
seconds (`_prepare_start_second`, `_prepare_stop_second`, the latter
clamping to the duration), run `_validate_range`, then derive timestamps and
frame numbers.  Exactly as in the source, the clamped triple returned by
`valid_extraction_range` is discarded: only its exception matters.  The
source guard `self.stop_second is None` in `_prepare_stop_frame` is dead
(the field is always a float by then) and has no counterpart here. -/
def ExtractionRange.make (duration_seconds : ℚ) (frame_count : ℕ)
    (start_time stop_time : TimeValue) (fps : ℚ) :
    Except PyError ExtractionRange := do
  let start_second ← (prepareSecond start_time).elim (Except.error .valueError) .ok
  let stop0 ← (prepareSecond stop_time).elim (Except.error .valueError) .ok
  let stop_second := if stop0 > duration_seconds then duration_seconds else stop0
  let _ ← valid_extraction_range start_second stop_second duration_seconds
  pure
    { duration_seconds := duration_seconds
      frame_count := frame_count
      start_time := start_time
      stop_time := stop_time
      fps := fps
      start_second := start_second
      stop_second := stop_second
      start_timestamp := seconds_to_timestamp start_second
      stop_timestamp := seconds_to_timestamp stop_second
      start_frame := ⌊start_second * fps⌋
      stop_frame := ⌊stop_second * fps⌋ }


/-- `re.match(r"^([0-9]|[0-5][0-9])(:[0-5][0-9]){1,2}$", s)` as a Boolean
predicate.  The anchored pattern can only match strings of length 4, 5, 7 or
8 (first field of one or two characters, then one or two `:[0-5][0-9]`
groups), so the match is decided by exhausting those shapes. -/
def timestampRegexMatch : List Char → Bool
  | [d, ':', a, b] => isDigitChar d && isZeroToFive a && isDigitChar b
  | [c, d, ':', a, b] =>
    isZeroToFive c && isDigitChar d && isZeroToFive a && isDigitChar b
  | [d, ':', a, b, ':', e, f] =>
    isDigitChar d && isZeroToFive a && isDigitChar b && isZeroToFive e && isDigitChar f
  | [c, d, ':', a, b, ':', e, f] =>
    isZeroToFive c && isDigitChar d && isZeroToFive a && isDigitChar b
      && isZeroToFive e && isDigitChar f
  | _ => false

/-- `videoxt.validators.valid_timestamp`: reject empty input, truncate at
the first `'.'`, then require the regex format; return the truncated
timestamp on success.  (`None` input and the empty string raise the same
`ValidationError`; the model's input is always a string.) -/
def valid_timestamp (timestamp : List Char) : Except PyError (List Char) :=
  if timestamp.isEmpty then .error .validationError
  else
    let t := (splitOnChar '.' timestamp).headD []
    if timestampRegexMatch t then .ok t else .error .validationError

/-- A timestamp field as the claim describes it: one or two digit characters
for the leading field, value between 0 and 59. -/
def specLeadField (l : List Char) : Prop :=
  (l.length = 1 ∨ l.length = 2) ∧ (∀ c ∈ l, isDigitChar c) ∧ digitsVal l ≤ 59

/-- A non-leading timestamp field as the claim describes it: exactly two
digit characters, value between 0 and 59. -/
def specTailField (l : List Char) : Prop :=
  l.length = 2 ∧ (∀ c ∈ l, isDigitChar c) ∧ digitsVal l ≤ 59

/-- The claim's timestamp format: `M:SS`, `MM:SS`, `H:MM:SS` or `HH:MM:SS`
with each field between 0 and 59 (stated over the `':'`-separated fields). -/
def specTimestampForm (l : List Char) : Prop :=
  match splitOnChar ':' l with
  | [a, b] => specLeadField a ∧ specTailField b
  | [a, b, c] => specLeadField a ∧ specTailField b ∧ specTailField c
  | _ => False

/-- `videoxt.preppers.prepare_start_time`: the requested start time, or `0`
when none was given. -/
def prepare_start_time (request_start_time : Option TimeValue) : TimeValue :=
  request_start_time.getD (.num 0)

/-- `videoxt.preppers.prepare_stop_time`: the requested stop time, or the
video's duration when none was given. -/
def prepare_stop_time (video_duration_seconds : ℚ)
    (request_stop_time : Option TimeValue) : TimeValue :=
  request_stop_time.getD (.num video_duration_seconds)

/-- `videoxt.preppers.prepare_fps`: the requested fps, or the video's fps
when none was given. -/
def prepare_fps (video_fps : ℚ) (request_fps : Option ℚ) : ℚ :=
  request_fps.getD video_fps

/-- The dictionary `ExtractionRange.to_dict` returns. -/
structure RangeDict where
  start_second : ℚ
  stop_second : ℚ
  start_timestamp : List Char
  stop_timestamp : List Char
  start_frame : ℤ
  stop_frame : ℤ
  deriving DecidableEq

/-- `ExtractionRange.to_dict`. -/
def ExtractionRange.to_dict (er : ExtractionRange) : RangeDict :=
  { start_second := er.start_second
    stop_second := er.stop_second
    start_timestamp := er.start_timestamp
    stop_timestamp := er.stop_timestamp
    start_frame := er.start_frame
    stop_frame := er.stop_frame }

/-- `videoxt.preppers.prepare_extraction_range`: raise `PreparationError`
when any prepared input is `None`, otherwise build an `ExtractionRange` and
return its dictionary. -/
def prepare_extraction_range (duration_seconds : ℚ) (frame_count : ℕ)
    (prepared_start_time prepared_stop_time : Option TimeValue)
    (prepared_fps : Option ℚ) : Except PyError RangeDict :=
  match prepared_start_time, prepared_stop_time, prepared_fps with
  | some st, some sp, some f =>
    (ExtractionRange.make duration_seconds frame_count st sp f).map
      ExtractionRange.to_dict
  | _, _, _ => .error .preparationError

/-- `videoxt.preppers.prepare_images_expected`: raise `PreparationError`
when an argument is `None`; `ceil((stop - start) / rate)` otherwise, with
the `ZeroDivisionError` for a zero rate re-raised as `PreparationError`. -/
def prepare_images_expected (start_frame stop_frame capture_rate : Option ℤ) :
    Except PyError ℤ :=
  match start_frame, stop_frame, capture_rate with
  | some a, some b, some r =>
    if r = 0 then .error .preparationError
    else .ok ⌈((b : ℚ) - a) / r⌉
  | _, _, _ => .error .preparationError

/-- The video metadata `PreparedBaseRequest.prepare` reads
(`videoxt.video.Video`: `duration_seconds`, `frame_count`, `fps`). -/
structure Video where
  duration_seconds : ℚ
  frame_count : ℕ
  fps : ℚ
  deriving DecidableEq

/-- The state of `videoxt.requestors.PreparedBaseRequest`.  `none` in an
optional field means the request did not specify it; `extraction_range` is
`none` until `prepare()` assigns it (the source initialises it to an empty
dict). -/
structure PreparedBaseRequest where
  video : Video
  start_time : Option TimeValue := none
  stop_time : Option TimeValue := none
  destdir : Option (List (List Char)) := none
  filename : Option (List Char) := none
  verbose : Option Bool := none
  overwrite : Option Bool := none
  fps : Option ℚ := none
  extraction_range : Option RangeDict := none
  deriving DecidableEq

/-- `PreparedBaseRequest.prepare`: resolve start time, stop time and fps,
compute the extraction range (which may raise), then default `verbose` and
`overwrite` to `False`.  Mutation of `self` is modelled by threading the
updated record. -/
def PreparedBaseRequest.prepare (p : PreparedBaseRequest) :
    Except PyError PreparedBaseRequest := do
  let p := { p with start_time := some (prepare_start_time p.start_time) }
  let p := { p with
    stop_time := some (prepare_stop_time p.video.duration_seconds p.stop_time) }
  let p := { p with fps := some (prepare_fps p.video.fps p.fps) }
  let er ← prepare_extraction_range p.video.duration_seconds p.video.frame_count
    p.start_time p.stop_time p.fps
  let p := { p with extraction_range := some er }
  let p := { p with verbose := some (p.verbose.getD false) }
  let p := { p with overwrite := some (p.overwrite.getD false) }
  pure p

/-- A filesystem path at the granularity the destination-path logic uses:
parent directory components (`Path.parent`), stem (`Path.stem`) and suffix
(`Path.suffix`); the file name is `stem ++ suffix`.  The decomposition is
exact for the well-formed suffixes the pipeline builds (a `'.'` followed by
a non-empty dot-free extension). -/
structure FsPath where
  dir : List (List Char)
  stem : List Char
  sfx : List Char
  deriving DecidableEq

/-- The characters `videoxt.validators.valid_filename` rejects
(`\\/:*?"<>|`). -/
def invalidFilenameChars : List Char := ['\\', '/', ':', '*', '?', '"', '<', '>', '|']

/-- `videoxt.validators.valid_filename`: reject an empty name or one
containing an invalid character, return the name otherwise.  (`None` input
raises the same `ValidationError`; the model's input is always a string.) -/
def valid_filename (filename : List Char) : Except PyError (List Char) :=
  if filename.isEmpty then .error .validationError
  else if filename.any (fun c => c ∈ invalidFilenameChars) then .error .validationError
  else .ok filename

/-- `videoxt.utils.append_enumeration`: clamp the index up to 1; without a
tag return `" (index)"`; with a tag, validate it as a filename and return
the tag alone for index 1, `"tag (index)"` otherwise. -/
def append_enumeration (index : ℕ) (tag : Option (List Char)) :
    Except PyError (List Char) :=
  let index := if index < 1 then 1 else index
  match tag with
  | none => .ok (" (".data ++ natChars index ++ ")".data)
  | some tag => do
    let tag ← valid_filename tag
    if index > 1 then .ok (tag ++ " (".data ++ natChars index ++ ")".data)
    else .ok tag

/-- The candidate path `enumerate_filepath` tries at a given index:
`filepath.with_name(f"{filepath.stem}{append_str}{filepath.suffix}")`. -/
def enumCandidate (filepath : FsPath) (app : List Char) : FsPath :=
  { filepath with stem := filepath.stem ++ app }

/-- The `while True` loop of `videoxt.utils.enumerate_filepath`, with
explicit fuel.  The source loop always terminates because candidates at
distinct indices are distinct paths and the filesystem is finite; fuel
`fs.length + 1` is enough (proved below), so the fuel-exhausted branch is
unreachable there. -/
def enumFrom (fs : List FsPath) (filepath : FsPath) (tag : Option (List Char)) :
    ℕ → ℕ → Except PyError FsPath
  | 0, _ => .error .preparationError
  | fuel + 1, index => do
    let app ← append_enumeration index tag
    let newPath := enumCandidate filepath app
    if newPath ∈ fs then enumFrom fs filepath tag fuel (index + 1) else pure newPath

/-- `videoxt.utils.enumerate_filepath` against an explicit finite
filesystem `fs` (the set of existing paths): return the path unchanged if it
does not exist, otherwise enumerate from index 1. -/
def enumerate_filepath (fs : List FsPath) (filepath : FsPath)
    (tag : Option (List Char)) : Except PyError FsPath :=
  if filepath ∈ fs then enumFrom fs filepath tag (fs.length + 1) 1
  else .ok filepath

/-- The destination path `prepare_destpath` computes before any overwrite or
enumeration handling: base directory (requested directory, else the video's
parent) joined with the chosen filename (requested, else the video's stem —
Python's `or` also rejects an empty requested name) plus the suffix with a
leading `'.'` ensured. -/
def destCandidate (video_filepath : FsPath) (request_filename : Option (List Char))
    (request_destdir : Option (List (List Char))) (ps : List Char) : FsPath :=
  let base_dir := request_destdir.getD video_filepath.dir
  let sfx := if ps.head? = some '.' then ps else '.' :: ps
  let stem0 := match request_filename with
    | some f => if f.isEmpty then video_filepath.stem else f
    | none => video_filepath.stem
  { dir := base_dir, stem := stem0, sfx := sfx }

/-- `videoxt.preppers.prepare_destpath`: raise when the suffix is `None`;
return the computed destination when overwriting is allowed and it differs
from the source video; otherwise enumerate with the `"_vxt"` tag. -/
def prepare_destpath (fs : List FsPath) (video_filepath : FsPath)
    (request_filename : Option (List Char))
    (request_destdir : Option (List (List Char)))
    (prepared_suffix : Option (List Char)) (prepared_overwrite : Option Bool) :
    Except PyError FsPath :=
  match prepared_suffix with
  | none => .error .preparationError
  | some ps =>
    let dest := destCandidate video_filepath request_filename request_destdir ps
    if prepared_overwrite = some true ∧ dest ≠ video_filepath then .ok dest
    else enumerate_filepath fs dest (some "_vxt".data)

/-- The string `append_enumeration i (some "_vxt")` produces for `i ≥ 1`. -/
def vxtAppend (i : ℕ) : List Char :=
  if i ≤ 1 then "_vxt".data else "_vxt (".data ++ natChars i ++ ")".data

/-- The tagged path the claim says `prepare_destpath` returns in the
non-overwrite case: the destination's stem with `"_vxt"` appended, followed
by `" (index)"` for some index at least 2 — or, on the generous reading, the
bare `"_vxt"` form.  (`vxtAppend 1` is the bare form.) -/
def claimTaggedResult (dest r : FsPath) : Prop :=
  ∃ i, 1 ≤ i ∧ r = enumCandidate dest (vxtAppend i)

/-- The state of `videoxt.requestors.BaseRequest`.  The backing field
`_is_validated` is declared `field(init=False)` with no default, so it is
absent on a freshly constructed object: `none` models the absent attribute,
and reading it through the `is_validated` property raises
`AttributeError`. -/
structure BaseRequest where
  start_time : Option TimeValue := none
  stop_time : Option TimeValue := none
  destdir : Option (List (List Char)) := none
  filename : Option (List Char) := none
  verbose : Option Bool := none
  overwrite : Option Bool := none
  fps : Option ℚ := none
  _is_validated : Option Bool := none
  deriving DecidableEq

/-- The `BaseRequest.is_validated` property: read the `_is_validated`
attribute, raising `AttributeError` when it was never assigned. -/
def BaseRequest.is_validated (r : BaseRequest) : Except PyError Bool :=
  match r._is_validated with
  | none => .error .attributeError
  | some b => .ok b

/-- `videoxt.requestors.AudioRequest` (its fields beyond `BaseRequest`). -/
structure AudioRequest extends BaseRequest where
  audio_format : Option (List Char) := none
  speed : Option ℚ := none
  bounce : Option Bool := none
  reverse : Option Bool := none
  volume : Option ℚ := none
  normalize : Option Bool := none
  deriving DecidableEq

/-- `videoxt.requestors.ClipRequest` (its fields beyond `BaseRequest`). -/
structure ClipRequest extends BaseRequest where
  dimensions : Option (ℕ × ℕ) := none
  resize : Option ℚ := none
  rotate : Option ℤ := none
  speed : Option ℚ := none
  bounce : Option Bool := none
  reverse : Option Bool := none
  monochrome : Option Bool := none
  volume : Option ℚ := none
  normalize : Option Bool := none
  deriving DecidableEq

/-- `videoxt.requestors.FramesRequest` (its fields beyond `BaseRequest`). -/
structure FramesRequest extends BaseRequest where
  image_format : Option (List Char) := none
  capture_rate : Option ℤ := none
  dimensions : Option (ℕ × ℕ) := none
  resize : Option ℚ := none
  rotate : Option ℤ := none
  monochrome : Option Bool := none
  deriving DecidableEq

/-- `videoxt.requestors.GifRequest` (its fields beyond `BaseRequest`). -/
structure GifRequest extends BaseRequest where
  capture_rate : Option ℤ := none
  dimensions : Option (ℕ × ℕ) := none
  resize : Option ℚ := none
  rotate : Option ℤ := none
  speed : Option ℚ := none
  bounce : Option Bool := none
  reverse : Option Bool := none
  monochrome : Option Bool := none
  deriving DecidableEq

/-- `AudioRequest.prepare` opens with
`if not self.is_validated: self.validate()` before building the prepared
request.  Reading `is_validated` is the first effect; the remainder of the
method (the `validate()` call and the construction of the
`PreparedAudioRequest`) is abstracted as the `validate` and `rest`
parameters, since no continuation is reached when the read raises — the
theorem below holds for every choice of them. -/
def AudioRequest.prepare (r : AudioRequest)
    (validate : AudioRequest → Except PyError AudioRequest)
    (rest : AudioRequest → Except PyError PreparedBaseRequest) :
    Except PyError PreparedBaseRequest := do
  let v ← r.toBaseRequest.is_validated
  let r ← if v then pure r else validate r
  rest r

/-- `ClipRequest.prepare`, abstracted the same way as
`AudioRequest.prepare`. -/
def ClipRequest.prepare (r : ClipRequest)
    (validate : ClipRequest → Except PyError ClipRequest)
    (rest : ClipRequest → Except PyError PreparedBaseRequest) :
    Except PyError PreparedBaseRequest := do
  let v ← r.toBaseRequest.is_validated
  let r ← if v then pure r else validate r
  rest r

/-- `FramesRequest.prepare`, abstracted the same way as
`AudioRequest.prepare`. -/
def FramesRequest.prepare (r : FramesRequest)
    (validate : FramesRequest → Except PyError FramesRequest)
    (rest : FramesRequest → Except PyError PreparedBaseRequest) :
    Except PyError PreparedBaseRequest := do
  let v ← r.toBaseRequest.is_validated
  let r ← if v then pure r else validate r
  rest r

/-- `GifRequest.prepare`, abstracted the same way as
`AudioRequest.prepare`. -/
def GifRequest.prepare (r : GifRequest)
    (validate : GifRequest → Except PyError GifRequest)
    (rest : GifRequest → Except PyError PreparedBaseRequest) :
    Except PyError PreparedBaseRequest := do
  let v ← r.toBaseRequest.is_validated
  let r ← if v then pure r else validate r
  rest r

/-! ### Theorems -/

/-- `splitOnChar` never returns the empty list (Python `str.split` never
returns `[]`). -/
theorem splitOnChar_ne_nil (c : Char) (l : List Char) : splitOnChar c l ≠ [] := by
  cases l with
  | nil => simp [splitOnChar]
  | cons x xs =>
    simp only [splitOnChar]
    split <;> simp

/-- Splitting a list that does not contain the separator returns the list as
the single piece. -/
theorem splitOnChar_of_not_mem {c : Char} {l : List Char} (h : c ∉ l) :
    splitOnChar c l = [l] := by
  induction l with
  | nil => rfl
  | cons x xs ih =>
    have hx : x ≠ c := fun hxc => h (hxc ▸ List.mem_cons_self x xs)
    have hxs : c ∉ xs := fun hm => h (List.mem_cons_of_mem x hm)
    simp [splitOnChar, hx, ih hxs]

/-- Splitting `a ++ c :: rest` where `a` is separator-free yields `a` followed
by the split of `rest`. -/
theorem splitOnChar_append {c : Char} {a : List Char} (rest : List Char)
    (h : c ∉ a) :
    splitOnChar c (a ++ c :: rest) = a :: splitOnChar c rest := by
  induction a with
  | nil => simp [splitOnChar]
  | cons x xs ih =>
    have hx : x ≠ c := fun hxc => h (hxc ▸ List.mem_cons_self x xs)
    have hxs : c ∉ xs := fun hm => h (List.mem_cons_of_mem x hm)
    have hr := ih hxs
    simp only [List.cons_append, splitOnChar, if_neg hx, List.append_eq]
    rw [hr]
    simp

/-- Splitting the join (with separator `c`) of a non-empty list of
separator-free pieces recovers the pieces. -/
theorem splitOnChar_intercalate (c : Char) (parts : List (List Char))
    (hne : parts ≠ []) (h : ∀ p ∈ parts, c ∉ p) :
    splitOnChar c (List.intercalate [c] parts) = parts := by
  induction parts with
  | nil => exact absurd rfl hne
  | cons p ps ih =>
    cases ps with
    | nil =>
      simp [List.intercalate, splitOnChar_of_not_mem (h p (List.mem_cons_self p []))]
    | cons q qs =>
      have hp : c ∉ p := h p (List.mem_cons_self _ _)
      have hrec := ih (by simp) (fun r hr => h r (List.mem_cons_of_mem p hr))
      have hjoin : List.intercalate [c] (p :: q :: qs)
          = p ++ c :: List.intercalate [c] (q :: qs) := by
        simp [List.intercalate, List.intersperse]
      rw [hjoin, splitOnChar_append _ hp, hrec]

/-- Every piece produced by `splitOnChar` is free of the separator. -/
theorem splitOnChar_not_mem (c : Char) (l : List Char) :
    ∀ p ∈ splitOnChar c l, c ∉ p := by
  induction l with
  | nil => intro p hp; simp [splitOnChar] at hp; simp [hp]
  | cons x xs ih =>
    intro p hp
    by_cases hx : x = c
    · simp only [splitOnChar, if_pos hx] at hp
      rw [List.mem_cons] at hp
      rcases hp with hp | hp
      · simp [hp]
      · exact ih p hp
    · simp only [splitOnChar, if_neg hx] at hp
      rcases hsplit : splitOnChar c xs with _ | ⟨z, zs⟩
      · exact absurd hsplit (splitOnChar_ne_nil c xs)
      · rw [hsplit] at hp
        simp only [List.headD_cons, List.tail_cons] at hp
        have hz : c ∉ z := ih z (by rw [hsplit]; exact List.mem_cons_self _ _)
        have hzs : ∀ q ∈ zs, c ∉ q :=
          fun q hq => ih q (by rw [hsplit]; exact List.mem_cons_of_mem _ hq)
        rw [List.mem_cons] at hp
        rcases hp with hp | hp
        · subst hp
          intro hc
          rw [List.mem_cons] at hc
          rcases hc with hc | hc
          · exact hx hc.symm
          · exact hz hc
        · exact hzs p hp
/-- The fuel argument of `natCharsAux` is irrelevant once it exceeds the
value being rendered. -/
theorem natCharsAux_fuel : ∀ {n f g : ℕ}, n < f → n < g →
    natCharsAux f n = natCharsAux g n := by
  intro n
  induction n using Nat.strong_induction_on with
  | _ n ih =>
    intro f g hf hg
    cases f with
    | zero => omega
    | succ f =>
      cases g with
      | zero => omega
      | succ g =>
        simp only [natCharsAux]
        split
        · rfl
        · rename_i hn
          have hd : n / 10 < n := Nat.div_lt_self (by omega) (by omega)
          rw [ih (n / 10) hd (show n / 10 < f by omega) (show n / 10 < g by omega)]

/-- Unfolding equation for `natChars` on large values. -/
theorem natChars_eq_of_ten_le {n : ℕ} (h : 10 ≤ n) :
    natChars n = natChars (n / 10) ++ [digitChar (n % 10)] := by
  have hd : n / 10 < n := Nat.div_lt_self (by omega) (by omega)
  have hstep : natCharsAux (n + 1) n = natCharsAux n (n / 10) ++ [digitChar (n % 10)] := by
    simp only [natCharsAux, Nat.not_lt.mpr h, if_false]
  show natCharsAux (n + 1) n = natCharsAux (n / 10 + 1) (n / 10) ++ [digitChar (n % 10)]
  rw [hstep, natCharsAux_fuel hd (Nat.lt_succ_self _)]

/-- `natChars` of a single digit. -/
theorem natChars_of_lt_ten {n : ℕ} (h : n < 10) : natChars n = [digitChar n] := by
  simp [natChars, natCharsAux, h]

/-- `str(n)` is never empty. -/
theorem natChars_ne_nil (n : ℕ) : natChars n ≠ [] := by
  by_cases h : n < 10
  · simp [natChars_of_lt_ten h]
  · rw [natChars_eq_of_ten_le (Nat.le_of_not_lt h)]
    simp
/-- The two clamping steps of `valid_extraction_range`, as `min`/`max`. -/
theorem clamp_stop_eq_min (stop duration : ℚ) :
    (if stop > duration then duration else stop) = min stop duration := by
  rcases le_or_lt stop duration with h | h
  · simp [min_def, h, not_lt.mpr h]
  · simp [min_def, h, not_le.mpr h]

/-- The start clamp of `valid_extraction_range`, as `max`. -/
theorem clamp_start_eq_max (start : ℚ) :
    (if start < 0 then 0 else start) = max start 0 := by
  rcases le_or_lt 0 start with h | h
  · simp [max_def, h, not_lt.mpr h]
  · simp [max_def, h, not_le.mpr h, le_of_lt h]

/-- If `ExtractionRange.make` succeeds, every stored field has the shape the
`__post_init__` pipeline computes. -/
theorem ExtractionRange.make_ok {d : ℚ} {fc : ℕ} {st sp : TimeValue} {fps : ℚ}
    {er : ExtractionRange} (h : ExtractionRange.make d fc st sp fps = .ok er) :
    ∃ s1 s2 t, prepareSecond st = some s1 ∧ prepareSecond sp = some s2 ∧
      valid_extraction_range s1 (if s2 > d then d else s2) d = .ok t ∧
      er = { duration_seconds := d, frame_count := fc, start_time := st,
             stop_time := sp, fps := fps, start_second := s1,
             stop_second := if s2 > d then d else s2,
             start_timestamp := seconds_to_timestamp s1,
             stop_timestamp := seconds_to_timestamp (if s2 > d then d else s2),
             start_frame := ⌊s1 * fps⌋,
             stop_frame := ⌊(if s2 > d then d else s2) * fps⌋ } := by
  cases h1 : prepareSecond st with
  | none => simp [ExtractionRange.make, h1, Option.elim, bind, Except.bind] at h
  | some s1 =>
    cases h2 : prepareSecond sp with
    | none => simp [ExtractionRange.make, h1, h2, Option.elim, bind, Except.bind] at h
    | some s2 =>
      have hif : ∀ q : ℚ, (d < q) = (q > d) := fun q => rfl
      cases h3 : valid_extraction_range s1 (if s2 > d then d else s2) d with
      | error e =>
        simp only [ExtractionRange.make, h1, h2, Option.elim, bind, Except.bind,
          Functor.map, Except.map, gt_iff_lt] at h
        simp only [gt_iff_lt] at h3
        rw [h3] at h
        simp at h
      | ok t =>
        refine ⟨s1, s2, t, rfl, rfl, h3, ?_⟩
        simp only [ExtractionRange.make, h1, h2, Option.elim, bind, Except.bind,
          Functor.map, Except.map, gt_iff_lt] at h
        simp only [gt_iff_lt] at h3
        rw [h3] at h
        simp only [pure, Except.pure, Except.ok.injEq] at h
        simp only [gt_iff_lt]
        exact h.symm

/-- C2: `valid_extraction_range(start, stop, duration)` first clamps `stop`
down to `duration` and `start` up to `0`; it raises `ValidationError` if and
only if, after this clamping, `start ≥ duration` or `stop ≤ start`, and
otherwise returns the clamped triple `(start, stop, duration)`, which
satisfies `0 ≤ start < stop ≤ duration`. -/
theorem valid_extraction_range_spec (start stop duration : ℚ) :
    (valid_extraction_range start stop duration = .error .validationError ↔
      max start 0 ≥ duration ∨ min stop duration ≤ max start 0) ∧
    (¬(max start 0 ≥ duration ∨ min stop duration ≤ max start 0) →
      valid_extraction_range start stop duration
          = .ok (max start 0, min stop duration, duration) ∧
        0 ≤ max start 0 ∧ max start 0 < min stop duration ∧
        min stop duration ≤ duration) := by
  by_cases ha : duration ≤ max start 0
  · have he : valid_extraction_range start stop duration = .error .validationError := by
      simp only [valid_extraction_range]
      rw [clamp_stop_eq_min, clamp_start_eq_max, if_pos (ge_iff_le.mpr ha)]
    refine ⟨by simp [he, ha], fun hc => absurd (Or.inl ha) hc⟩
  · by_cases hb : min stop duration ≤ max start 0
    · have he : valid_extraction_range start stop duration = .error .validationError := by
        simp only [valid_extraction_range]
        rw [clamp_stop_eq_min, clamp_start_eq_max, if_neg (by exact ha),
          if_pos hb]
      refine ⟨by simp [he, hb], fun hc => absurd (Or.inr hb) hc⟩
    · have he : valid_extraction_range start stop duration
          = .ok (max start 0, min stop duration, duration) := by
        simp only [valid_extraction_range]
        rw [clamp_stop_eq_min, clamp_start_eq_max, if_neg (by exact ha),
          if_neg hb]
      refine ⟨by simp [he, ha, hb], fun _ => ?_⟩
      exact ⟨he, le_max_right _ _, not_le.mp hb, min_le_right _ _⟩

/-- C2 witness: the spec theorem applied at `start = -3`, `stop = 50`,
`duration = 20`. -/
theorem valid_extraction_range_spec_witness :
    valid_extraction_range (-3) 50 20 = .ok (0, 20, 20) := by
  have h := (valid_extraction_range_spec (-3) 50 20).2
    (by norm_num [max_def, min_def])
  have hmax : max (-3 : ℚ) 0 = 0 := by norm_num [max_def]
  have hmin : min (50 : ℚ) 20 = 20 := by norm_num [min_def]
  rw [hmax, hmin] at h
  exact h.1

/-- C1 counterexample: `ExtractionRange(duration_seconds=20, frame_count=600,
start_time=-5, stop_time=10, fps=30)` completes without raising, yet stores
`start_second = -5 < 0`, because `_validate_range` discards the clamped
triple `valid_extraction_range` returns. -/
theorem extraction_range_neg_start_counterexample :
    (ExtractionRange.make 20 600 (.num (-5)) (.num 10) 30).map
        ExtractionRange.start_second = .ok (-5) ∧ ¬ ((0 : ℚ) ≤ -5) := by
  constructor
  · simp only [ExtractionRange.make, prepareSecond, Option.elim, bind, Except.bind,
      valid_extraction_range, Functor.map, Except.map]
    norm_num
    rfl
  · norm_num

/-- C1 (amended): for every `ExtractionRange` whose construction completes,
the stored plan satisfies `max start_second 0 < stop_second ≤
duration_seconds` (hence `start_second < stop_second`); the lower bound
`0 ≤ start_second` of the claim can fail, because `_validate_range` discards
the clamped start returned by the validator. -/
theorem extraction_range_make_bounds {d : ℚ} {fc : ℕ} {st sp : TimeValue}
    {fps : ℚ} {er : ExtractionRange}
    (h : ExtractionRange.make d fc st sp fps = .ok er) :
    er.start_second < er.stop_second ∧ max er.start_second 0 < er.stop_second ∧
      er.stop_second ≤ er.duration_seconds := by
  obtain ⟨s1, s2, t, h1, h2, h3, her⟩ := ExtractionRange.make_ok h
  subst her
  have hs2d : (if s2 > d then d else s2) ≤ d := by
    split_ifs with hgt
    · exact le_refl d
    · exact le_of_not_lt hgt
  have hne : ¬(max s1 0 ≥ d ∨ min (if s2 > d then d else s2) d ≤ max s1 0) := by
    intro hc
    have herr := (valid_extraction_range_spec s1 (if s2 > d then d else s2) d).1.mpr hc
    rw [herr] at h3
    exact Except.noConfusion h3
  push_neg at hne
  have hlt : max s1 0 < (if s2 > d then d else s2) := by
    have := hne.2
    rwa [min_eq_left hs2d] at this
  refine ⟨?_, ?_, ?_⟩
  · exact lt_of_le_of_lt (le_max_left s1 0) hlt
  · exact hlt
  · exact hs2d

/-- C1 witness: the amended bound at the concrete successful construction
`ExtractionRange(20, 600, start_time=0, stop_time=10, fps=30)`. -/
theorem extraction_range_make_bounds_witness :
    (ExtractionRange.make 20 600 (.num 0) (.num 10) 30).toOption.elim False
      (fun er => er.start_second < er.stop_second ∧
        max er.start_second 0 < er.stop_second ∧
        er.stop_second ≤ er.duration_seconds) := by
  cases hmk : ExtractionRange.make 20 600 (.num 0) (.num 10) 30 with
  | error e =>
    simp only [ExtractionRange.make, prepareSecond, Option.elim, bind, Except.bind,
      valid_extraction_range, Functor.map, Except.map, pure, Except.pure] at hmk
    norm_num at hmk
    exact Except.noConfusion hmk
  | ok er =>
    simpa [Except.toOption] using extraction_range_make_bounds hmk

/-- C4: for every `ExtractionRange` whose construction completes, the frame
numbers are `start_frame = floor(start_second * fps)` and
`stop_frame = floor(stop_second * fps)`, with `fps` stored as supplied. -/
theorem extraction_range_frames {d : ℚ} {fc : ℕ} {st sp : TimeValue}
    {fps : ℚ} {er : ExtractionRange}
    (h : ExtractionRange.make d fc st sp fps = .ok er) :
    er.fps = fps ∧ er.start_frame = ⌊er.start_second * fps⌋ ∧
      er.stop_frame = ⌊er.stop_second * fps⌋ := by
  obtain ⟨s1, s2, t, h1, h2, h3, her⟩ := ExtractionRange.make_ok h
  subst her
  exact ⟨rfl, rfl, rfl⟩

/-- C4 witness: the frame-number law at the concrete successful construction
`ExtractionRange(20, 600, start_time=2, stop_time=10, fps=30)`. -/
theorem extraction_range_frames_witness :
    (ExtractionRange.make 20 600 (.num 2) (.num 10) 30).toOption.elim False
      (fun er => er.fps = 30 ∧ er.start_frame = ⌊er.start_second * 30⌋ ∧
        er.stop_frame = ⌊er.stop_second * 30⌋) := by
  cases hmk : ExtractionRange.make 20 600 (.num 2) (.num 10) 30 with
  | error e =>
    simp only [ExtractionRange.make, prepareSecond, Option.elim, bind, Except.bind,
      valid_extraction_range, Functor.map, Except.map, pure, Except.pure] at hmk
    norm_num at hmk
    exact Except.noConfusion hmk
  | ok er =>
    simpa [Except.toOption] using extraction_range_frames hmk

/-- C3: when `PreparedBaseRequest.prepare` returns, every shared parameter
is resolved: `start_time` is the requested value or `0`, `stop_time` the
requested value or the video's duration, `fps` the requested value or the
video's fps, and `verbose` and `overwrite` the requested values or
`False`. -/
theorem prepared_base_request_resolves {p q : PreparedBaseRequest}
    (h : p.prepare = .ok q) :
    q.start_time = some (p.start_time.getD (.num 0)) ∧
    q.stop_time = some (p.stop_time.getD (.num p.video.duration_seconds)) ∧
    q.fps = some (p.fps.getD p.video.fps) ∧
    q.verbose = some (p.verbose.getD false) ∧
    q.overwrite = some (p.overwrite.getD false) := by
  cases her : prepare_extraction_range p.video.duration_seconds p.video.frame_count
      (some (prepare_start_time p.start_time))
      (some (prepare_stop_time p.video.duration_seconds p.stop_time))
      (some (prepare_fps p.video.fps p.fps)) with
  | error e =>
    simp only [PreparedBaseRequest.prepare, bind, Except.bind] at h
    rw [her] at h
    exact Except.noConfusion h
  | ok er =>
    simp only [PreparedBaseRequest.prepare, bind, Except.bind] at h
    rw [her] at h
    simp only [pure, Except.pure, Except.ok.injEq] at h
    subst h
    simp [prepare_start_time, prepare_stop_time, prepare_fps]

/-- C3 witness: the resolution law applied to the empty request against a
video of duration 10 s, 300 frames, 30 fps. -/
theorem prepared_base_request_resolves_witness :
    (PreparedBaseRequest.prepare { video := ⟨10, 300, 30⟩ }).toOption.elim False
      (fun q => q.start_time = some (.num 0) ∧ q.stop_time = some (.num 10) ∧
        q.fps = some 30 ∧ q.verbose = some false ∧ q.overwrite = some false) := by
  cases hmk : PreparedBaseRequest.prepare { video := ⟨10, 300, 30⟩ } with
  | error e =>
    simp only [PreparedBaseRequest.prepare, prepare_extraction_range,
      prepare_start_time, prepare_stop_time, prepare_fps, Option.getD,
      ExtractionRange.make, prepareSecond, Option.elim, bind, Except.bind,
      valid_extraction_range, Functor.map, Except.map, pure, Except.pure] at hmk
    norm_num at hmk
    exact Except.noConfusion hmk
  | ok q =>
    simpa [Except.toOption, prepare_start_time, prepare_stop_time, prepare_fps]
      using prepared_base_request_resolves hmk

/-- C7: `prepare_images_expected(start_frame, stop_frame, capture_rate)`
raises `PreparationError` iff an argument is `None` or the capture rate is
zero, and otherwise returns `ceil((stop_frame - start_frame) /
capture_rate)`. -/
theorem prepare_images_expected_spec (a b r : Option ℤ) :
    (prepare_images_expected a b r = .error .preparationError ↔
      a = none ∨ b = none ∨ r = none ∨ r = some 0) ∧
    (∀ x y z : ℤ, a = some x → b = some y → r = some z → z ≠ 0 →
      prepare_images_expected a b r = .ok ⌈((y : ℚ) - x) / z⌉) := by
  constructor
  · cases a with
    | none => simp [prepare_images_expected]
    | some x =>
      cases b with
      | none => simp [prepare_images_expected]
      | some y =>
        cases r with
        | none => simp [prepare_images_expected]
        | some z =>
          simp only [prepare_images_expected]
          split_ifs with hz
          · simp [hz]
          · simp [hz]
  · intro x y z hx hy hz h0
    subst hx; subst hy; subst hz
    simp [prepare_images_expected, h0]

/-- C7 witness: the law applied at
`prepare_images_expected(0, 10, 2) = ceil(10 / 2) = 5`. -/
theorem prepare_images_expected_spec_witness :
    prepare_images_expected (some 0) (some 10) (some 2) = .ok 5 := by
  have h := (prepare_images_expected_spec (some 0) (some 10) (some 2)).2
    0 10 2 rfl rfl rfl (by norm_num)
  rw [h]
  norm_num

/-- C10: on a freshly constructed request the `_is_validated` backing field
was never assigned, so reading `is_validated` raises `AttributeError`, and
`prepare()` on an unvalidated `AudioRequest`, `ClipRequest`,
`FramesRequest` or `GifRequest` raises `AttributeError` (whatever the rest
of the method would do) instead of auto-validating first. -/
theorem unvalidated_request_attribute_error :
    (∀ r : BaseRequest, r._is_validated = none →
      r.is_validated = .error .attributeError) ∧
    (∀ r : AudioRequest, r.toBaseRequest._is_validated = none →
      ∀ validate rest, r.prepare validate rest = .error .attributeError) ∧
    (∀ r : ClipRequest, r.toBaseRequest._is_validated = none →
      ∀ validate rest, r.prepare validate rest = .error .attributeError) ∧
    (∀ r : FramesRequest, r.toBaseRequest._is_validated = none →
      ∀ validate rest, r.prepare validate rest = .error .attributeError) ∧
    (∀ r : GifRequest, r.toBaseRequest._is_validated = none →
      ∀ validate rest, r.prepare validate rest = .error .attributeError) := by
  refine ⟨?_, ?_, ?_, ?_, ?_⟩
  · intro r h
    simp [BaseRequest.is_validated, h]
  · intro r h validate rest
    simp [AudioRequest.prepare, BaseRequest.is_validated, h, bind, Except.bind]
  · intro r h validate rest
    simp [ClipRequest.prepare, BaseRequest.is_validated, h, bind, Except.bind]
  · intro r h validate rest
    simp [FramesRequest.prepare, BaseRequest.is_validated, h, bind, Except.bind]
  · intro r h validate rest
    simp [GifRequest.prepare, BaseRequest.is_validated, h, bind, Except.bind]

/-- C10 witness: the `AttributeError` behaviour at concrete freshly
constructed requests (all fields defaulted, `_is_validated` unassigned). -/
theorem unvalidated_request_attribute_error_witness :
    ({} : BaseRequest).is_validated = .error .attributeError ∧
    AudioRequest.prepare {} Except.ok (fun _ => .error .valueError)
      = .error .attributeError ∧
    ClipRequest.prepare {} Except.ok (fun _ => .error .valueError)
      = .error .attributeError ∧
    FramesRequest.prepare {} Except.ok (fun _ => .error .valueError)
      = .error .attributeError ∧
    GifRequest.prepare {} Except.ok (fun _ => .error .valueError)
      = .error .attributeError := by
  have h := unvalidated_request_attribute_error
  exact ⟨h.1 {} rfl, h.2.1 {} rfl _ _, h.2.2.1 {} rfl _ _,
    h.2.2.2.1 {} rfl _ _, h.2.2.2.2 {} rfl _ _⟩

/-- Code point of a rendered digit. -/
theorem digitChar_toNat {n : ℕ} (h : n < 10) : (digitChar n).toNat = 48 + n := by
  interval_cases n <;> decide

/-- Rendered digits satisfy the `[0-9]` class. -/
theorem isDigitChar_digitChar {n : ℕ} (h : n < 10) : isDigitChar (digitChar n) := by
  interval_cases n <;> decide

/-- A digit character is not a colon. -/
theorem isDigitChar_ne_colon {c : Char} (h : isDigitChar c) : c ≠ ':' := by
  intro hc
  subst hc
  exact absurd h (by decide)

/-- A digit character is not a dot. -/
theorem isDigitChar_ne_dot {c : Char} (h : isDigitChar c) : c ≠ '.' := by
  intro hc
  subst hc
  exact absurd h (by decide)

/-- Every character of `str(n)` is a decimal digit. -/
theorem natChars_all_digits : ∀ n : ℕ, ∀ c ∈ natChars n, isDigitChar c := by
  intro n
  induction n using Nat.strong_induction_on with
  | _ n ih =>
    by_cases h : n < 10
    · rw [natChars_of_lt_ten h]
      intro c hc
      rw [List.mem_singleton] at hc
      subst hc
      exact isDigitChar_digitChar h
    · rw [natChars_eq_of_ten_le (Nat.le_of_not_lt h)]
      intro c hc
      rw [List.mem_append] at hc
      rcases hc with hc | hc
      · exact ih (n / 10) (Nat.div_lt_self (by omega) (by omega)) c hc
      · rw [List.mem_singleton] at hc
        subst hc
        exact isDigitChar_digitChar (Nat.mod_lt n (by omega))

/-- `digitsVal` with an arbitrary accumulator. -/
theorem digitsVal_foldl (l : List Char) (a : ℕ) :
    l.foldl (fun a c => 10 * a + (c.toNat - 48)) a
      = a * 10 ^ l.length + digitsVal l := by
  induction l generalizing a with
  | nil => simp [digitsVal]
  | cons c t ih =>
    simp only [List.foldl_cons, List.length_cons, digitsVal]
    rw [ih, ih (10 * 0 + (c.toNat - 48))]
    ring

/-- `digitsVal` of an appended digit. -/
theorem digitsVal_append_digit (l : List Char) (c : Char) :
    digitsVal (l ++ [c]) = 10 * digitsVal l + (c.toNat - 48) := by
  simp only [digitsVal, List.foldl_append, List.foldl_cons, List.foldl_nil]

/-- Parsing inverts rendering: `digitsVal (natChars n) = n`. -/
theorem digitsVal_natChars : ∀ n : ℕ, digitsVal (natChars n) = n := by
  intro n
  induction n using Nat.strong_induction_on with
  | _ n ih =>
    by_cases h : n < 10
    · rw [natChars_of_lt_ten h]
      simp [digitsVal, digitChar_toNat h]
    · rw [natChars_eq_of_ten_le (Nat.le_of_not_lt h), digitsVal_append_digit,
        ih (n / 10) (Nat.div_lt_self (by omega) (by omega)),
        digitChar_toNat (Nat.mod_lt n (by omega))]
      omega

/-- `str(n)` is injective. -/
theorem natChars_inj {m n : ℕ} (h : natChars m = natChars n) : m = n := by
  have := congrArg digitsVal h
  rwa [digitsVal_natChars, digitsVal_natChars] at this

/-- Rendering a single-digit number produces one character. -/
theorem natChars_length_lt_ten {n : ℕ} (h : n < 10) : (natChars n).length = 1 := by
  rw [natChars_of_lt_ten h]
  rfl

/-- `pyFloat` inverts `natChars`. -/
theorem pyFloat_natChars (n : ℕ) : pyFloat (natChars n) = some ((n : ℚ)) := by
  have hdig : allDigits (natChars n) := by
    unfold allDigits
    rw [Bool.and_eq_true, Bool.not_eq_true', List.all_eq_true]
    refine ⟨?_, natChars_all_digits n⟩
    cases hnc : natChars n with
    | nil => exact absurd hnc (natChars_ne_nil n)
    | cons a t => rfl
  simp [pyFloat, hdig, digitsVal_natChars]

/-- The characters of `f"{n:02}"` are digits. -/
theorem twoDigitChars_all_digits (n : ℕ) : ∀ c ∈ twoDigitChars n, isDigitChar c := by
  intro c hc
  simp only [twoDigitChars] at hc
  split at hc
  · rw [List.mem_cons] at hc
    rcases hc with hc | hc
    · subst hc; decide
    · exact natChars_all_digits n c hc
  · exact natChars_all_digits n c hc

/-- `f"{n:02}"` parses back to `n`. -/
theorem digitsVal_twoDigitChars (n : ℕ) : digitsVal (twoDigitChars n) = n := by
  simp only [twoDigitChars]
  split
  · show digitsVal ('0' :: natChars n) = n
    have : digitsVal ('0' :: natChars n)
        = (natChars n).foldl (fun a c => 10 * a + (c.toNat - 48)) 0 := by
      simp [digitsVal]
    rw [this]
    exact digitsVal_natChars n
  · exact digitsVal_natChars n

/-- `pyFloat` inverts `twoDigitChars`. -/
theorem pyFloat_twoDigitChars (n : ℕ) :
    pyFloat (twoDigitChars n) = some ((n : ℚ)) := by
  have hne : twoDigitChars n ≠ [] := by
    simp only [twoDigitChars]
    split
    · simp
    · exact natChars_ne_nil n
  have hdig : allDigits (twoDigitChars n) := by
    unfold allDigits
    rw [Bool.and_eq_true, Bool.not_eq_true', List.all_eq_true]
    refine ⟨?_, twoDigitChars_all_digits n⟩
    cases hnc : twoDigitChars n with
    | nil => exact absurd hnc hne
    | cons a t => rfl
  simp [pyFloat, hdig, digitsVal_twoDigitChars]

/-- A colon never occurs in rendered digits. -/
theorem colon_not_mem_natChars (n : ℕ) : ':' ∉ natChars n :=
  fun h => isDigitChar_ne_colon (natChars_all_digits n _ h) rfl

/-- A colon never occurs in a two-digit rendering. -/
theorem colon_not_mem_twoDigitChars (n : ℕ) : ':' ∉ twoDigitChars n :=
  fun h => isDigitChar_ne_colon (twoDigitChars_all_digits n _ h) rfl

/-- A dot never occurs in rendered digits. -/
theorem dot_not_mem_natChars (n : ℕ) : '.' ∉ natChars n :=
  fun h => isDigitChar_ne_dot (natChars_all_digits n _ h) rfl

/-- A dot never occurs in a two-digit rendering. -/
theorem dot_not_mem_twoDigitChars (n : ℕ) : '.' ∉ twoDigitChars n :=
  fun h => isDigitChar_ne_dot (twoDigitChars_all_digits n _ h) rfl

/-- Parsing an `"H:MM:SS"` rendering: `timestamp_to_seconds` recovers
`3600 * hh + 60 * mm + ss`. -/
theorem timestamp_parse_hms (hh mm ss : ℕ) :
    timestamp_to_seconds
        (natChars hh ++ ':' :: twoDigitChars mm ++ ':' :: twoDigitChars ss)
      = some (((hh * 3600 + mm * 60 + ss : ℕ) : ℚ)) := by
  have hshape : natChars hh ++ ':' :: twoDigitChars mm ++ ':' :: twoDigitChars ss
      = natChars hh ++ ':' :: (twoDigitChars mm ++ ':' :: twoDigitChars ss) := by
    simp
  rw [hshape]
  have hdot : '.' ∉ natChars hh ++ ':' :: (twoDigitChars mm ++ ':' :: twoDigitChars ss) := by
    intro hmem
    simp only [List.mem_append, List.mem_cons] at hmem
    rcases hmem with h | h | h | h | h
    · exact dot_not_mem_natChars hh h
    · exact absurd h (by decide)
    · exact dot_not_mem_twoDigitChars mm h
    · exact absurd h (by decide)
    · exact dot_not_mem_twoDigitChars ss h
  unfold timestamp_to_seconds
  rw [splitOnChar_of_not_mem hdot]
  simp only [List.headD_cons]
  rw [splitOnChar_append _ (colon_not_mem_natChars hh),
    splitOnChar_append _ (colon_not_mem_twoDigitChars mm),
    splitOnChar_of_not_mem (colon_not_mem_twoDigitChars ss)]
  simp only [List.mapM_cons, List.mapM_nil, pyFloat_natChars, pyFloat_twoDigitChars,
    Option.pure_def, Option.bind_eq_bind, Option.bind_some, Option.some_bind]
  simp only [bind, Option.bind, List.reverse_cons, List.reverse_nil, List.nil_append,
    List.enum, List.enumFrom, List.map, List.sum_cons, List.sum_nil]
  congr 1
  push_cast
  norm_num
  ring

/-- C9: for every whole number of seconds below one day, converting to a
timestamp and back is the identity:
`timestamp_to_seconds (seconds_to_timestamp s) = s`. -/
theorem timestamp_roundtrip (s : ℕ) (h : s < 86400) :
    timestamp_to_seconds (seconds_to_timestamp (s : ℚ)) = some ((s : ℚ)) := by
  by_cases hz : s = 0
  · subst hz
    have h0 : seconds_to_timestamp ((0 : ℕ) : ℚ) = "0:00:00".data := by
      simp [seconds_to_timestamp]
    rw [h0]
    have heq : "0:00:00".data
        = natChars 0 ++ ':' :: twoDigitChars 0 ++ ':' :: twoDigitChars 0 := by decide
    rw [heq, timestamp_parse_hms]
  · have hpos : ¬ ((s : ℚ) ≤ 0) := by
      push_neg
      exact_mod_cast Nat.pos_of_ne_zero hz
    have hfloor : Int.toNat ⌊((s : ℚ))⌋ = s := by
      rw [Int.floor_natCast]
      simp
    rw [seconds_to_timestamp, if_neg hpos, hfloor]
    have hdays : s / 86400 = 0 := Nat.div_eq_of_lt h
    have hmod : s % 86400 = s := Nat.mod_eq_of_lt h
    simp only [timedeltaStr, hdays, hmod, if_true]
    rw [timestamp_parse_hms]
    congr 1
    have : s / 3600 * 3600 + s % 3600 / 60 * 60 + s % 60 = s := by omega
    exact_mod_cast congrArg (fun k : ℕ => (k : ℚ)) this

/-- C9 witness: the round trip at the concrete value `s = 3661`
(rendered `"1:01:01"`). -/
theorem timestamp_roundtrip_witness :
    timestamp_to_seconds (seconds_to_timestamp ((3661 : ℕ) : ℚ))
      = some (((3661 : ℕ) : ℚ)) :=
  timestamp_roundtrip 3661 (by norm_num)

/-- Unfolding `List.intercalate` over at least two pieces. -/
theorem intercalate_cons_cons (sep a b : List Char) (t : List (List Char)) :
    List.intercalate sep (a :: b :: t) = a ++ sep ++ List.intercalate sep (b :: t) := by
  simp [List.intercalate, List.intersperse]

/-- A character distinct from the separator and absent from every piece is
absent from the joined string. -/
theorem not_mem_intercalate {x c : Char} (hxc : x ≠ c) :
    ∀ parts : List (List Char), (∀ p ∈ parts, x ∉ p) →
      x ∉ List.intercalate [c] parts := by
  intro parts
  induction parts with
  | nil => intro _ hmem; simp [List.intercalate] at hmem
  | cons p ps ih =>
    intro h hmem
    cases ps with
    | nil =>
      simp [List.intercalate] at hmem
      exact h p (List.mem_cons_self _ _) hmem
    | cons q qs =>
      rw [intercalate_cons_cons] at hmem
      rcases List.mem_append.mp hmem with hm | hm
      · rcases List.mem_append.mp hm with hm | hm
        · exact h p (List.mem_cons_self _ _) hm
        · rw [List.mem_singleton] at hm
          exact hxc hm
      · exact ih (fun r hr => h r (List.mem_cons_of_mem _ hr)) hm

/-- `mapM pyFloat` succeeds on a list of non-empty digit strings, returning
their numeric values. -/
theorem mapM_pyFloat_digits :
    ∀ parts : List (List Char), (∀ p ∈ parts, p ≠ [] ∧ ∀ c ∈ p, isDigitChar c) →
      parts.mapM pyFloat = some (parts.map fun p => ((digitsVal p : ℚ))) := by
  intro parts
  induction parts with
  | nil => intro _; rfl
  | cons p ps ih =>
    intro h
    obtain ⟨hne, hdig⟩ := h p (List.mem_cons_self _ _)
    have hp : pyFloat p = some ((digitsVal p : ℚ)) := by
      have hall : allDigits p := by
        unfold allDigits
        rw [Bool.and_eq_true, Bool.not_eq_true', List.all_eq_true]
        refine ⟨?_, hdig⟩
        cases hp : p with
        | nil => exact absurd hp hne
        | cons a t => rfl
      simp [pyFloat, hall]
    rw [List.mapM_cons, hp, ih (fun r hr => h r (List.mem_cons_of_mem _ hr))]
    rfl

/-- Folding `60 * acc + v` from an arbitrary accumulator. -/
theorem foldl_sixty_acc (l : List ℚ) (a : ℚ) :
    l.foldl (fun acc v => 60 * acc + v) a
      = a * 60 ^ l.length + l.foldl (fun acc v => 60 * acc + v) 0 := by
  induction l generalizing a with
  | nil => simp
  | cons v t ih =>
    simp only [List.foldl_cons, List.length_cons]
    rw [ih, ih (60 * 0 + v)]
    ring

/-- The implementation's reversed-enumeration sum is the positional
(base-60) left fold. -/
theorem enum_rev_sum : ∀ l : List ℚ,
    ((l.reverse.enum.map fun e => e.2 * (60 : ℚ) ^ e.1).sum)
      = l.foldl (fun acc v => 60 * acc + v) 0 := by
  intro l
  induction l with
  | nil => simp
  | cons v t ih =>
    have happ : ((t.reverse ++ [v]).enum.map fun e => e.2 * (60 : ℚ) ^ e.1).sum
        = ((t.reverse.enum.map fun e => e.2 * (60 : ℚ) ^ e.1).sum)
          + v * 60 ^ t.reverse.length := by
      rw [List.enum_append]
      simp [List.enumFrom]
    simp only [List.reverse_cons, happ, ih, List.foldl_cons, List.length_reverse]
    rw [foldl_sixty_acc t (60 * 0 + v)]
    ring

/-- C5: on a timestamp made of colon-separated numeric (digit) parts,
optionally followed by a fractional suffix introduced by the first `'.'`,
`timestamp_to_seconds` discards the suffix and returns the base-60
positional value of the parts (the sum, right to left, of
`part * 60 ^ position`). -/
theorem timestamp_to_seconds_numeric (parts : List (List Char))
    (frac : Option (List Char)) (hne : parts ≠ [])
    (hdig : ∀ p ∈ parts, p ≠ [] ∧ ∀ c ∈ p, isDigitChar c) :
    timestamp_to_seconds
        (List.intercalate [':'] parts ++ frac.elim [] (fun f => '.' :: f))
      = some (parts.foldl (fun acc p => 60 * acc + ((digitsVal p : ℚ))) 0) := by
  have hcolon : ∀ p ∈ parts, ':' ∉ p :=
    fun p hp hc => isDigitChar_ne_colon ((hdig p hp).2 _ hc) rfl
  have hdot : '.' ∉ List.intercalate [':'] parts :=
    not_mem_intercalate (by decide) parts
      (fun p hp hc => isDigitChar_ne_dot ((hdig p hp).2 _ hc) rfl)
  have hhead : (splitOnChar '.' (List.intercalate [':'] parts
      ++ frac.elim [] (fun f => '.' :: f))).headD [] = List.intercalate [':'] parts := by
    cases frac with
    | none =>
      simp only [Option.elim, List.append_nil]
      rw [splitOnChar_of_not_mem hdot]
      rfl
    | some f =>
      simp only [Option.elim]
      rw [splitOnChar_append _ hdot]
      rfl
  simp only [timestamp_to_seconds]
  rw [hhead, splitOnChar_intercalate ':' parts hne hcolon,
    mapM_pyFloat_digits parts hdig]
  simp only [bind, Option.bind, Option.pure_def]
  rw [enum_rev_sum, List.foldl_map]

/-- C5 witness: the spec applied to the parts `["1", "01"]` with the
fractional suffix `".987654321"`, i.e.
`timestamp_to_seconds("1:01.987654321") = 61.0`. -/
theorem timestamp_to_seconds_numeric_witness :
    timestamp_to_seconds "1:01.987654321".data = some 61 := by
  have h := timestamp_to_seconds_numeric [['1'], ['0', '1']]
    (some "987654321".data) (by simp) (by decide)
  have harg : List.intercalate [':'] [['1'], ['0', '1']]
      ++ (some "987654321".data).elim [] (fun f => '.' :: f)
      = "1:01.987654321".data := by decide
  rw [harg] at h
  rw [h]
  have h1 : digitsVal ['1'] = 1 := by decide
  have h2 : digitsVal ['0', '1'] = 1 := by decide
  simp [h1, h2]
  norm_num

/-- `List.intercalate` of a single piece. -/
theorem intercalate_singleton (sep a : List Char) :
    List.intercalate sep [a] = a := by
  simp [List.intercalate, List.intersperse]

/-- Joining with the separator inverts `splitOnChar`. -/
theorem intercalate_splitOnChar (c : Char) : ∀ l : List Char,
    List.intercalate [c] (splitOnChar c l) = l := by
  intro l
  induction l with
  | nil => rfl
  | cons x xs ih =>
    rcases hsplit : splitOnChar c xs with _ | ⟨z, zs⟩
    · exact absurd hsplit (splitOnChar_ne_nil _ _)
    · rw [hsplit] at ih
      by_cases hx : x = c
      · subst hx
        simp only [splitOnChar, if_pos rfl, hsplit, if_true]
        rw [intercalate_cons_cons, ih]
        simp
      · simp only [splitOnChar, if_neg hx, hsplit, List.headD_cons, List.tail_cons]
        cases zs with
        | nil =>
          rw [intercalate_singleton] at ih
          rw [intercalate_singleton, ih]
        | cons w ws =>
          rw [intercalate_cons_cons] at ih
          rw [intercalate_cons_cons, ← ih]
          simp

/-- The head of `splitOnChar` is the prefix before the first separator
(Python's `s.split(sep)[0]`: truncation at the first occurrence). -/
theorem splitOnChar_head_takeWhile (c : Char) : ∀ l : List Char,
    (splitOnChar c l).headD [] = l.takeWhile (fun x => x != c) := by
  intro l
  induction l with
  | nil => rfl
  | cons x xs ih =>
    by_cases hx : x = c
    · subst hx
      simp [splitOnChar, List.takeWhile]
    · simp only [splitOnChar, if_neg hx, List.headD_cons, List.takeWhile]
      rw [show (x != c) = true by simpa using hx]
      simp only [ih]

/-- Unpacking the digit class. -/
theorem isDigitChar_iff {c : Char} :
    isDigitChar c = true ↔ 48 ≤ c.toNat ∧ c.toNat ≤ 57 := by
  simp [isDigitChar]

/-- Unpacking the `[0-5]` class. -/
theorem isZeroToFive_iff {c : Char} :
    isZeroToFive c = true ↔ 48 ≤ c.toNat ∧ c.toNat ≤ 53 := by
  simp [isZeroToFive]

/-- `[0-5]` is contained in `[0-9]`. -/
theorem isZeroToFive_isDigit {c : Char} (h : isZeroToFive c) : isDigitChar c := by
  rw [isZeroToFive_iff] at h
  rw [isDigitChar_iff]
  omega

/-- Value of a one-character digit string. -/
theorem digitsVal_singleton (a : Char) : digitsVal [a] = a.toNat - 48 := by
  simp [digitsVal]

/-- Value of a two-character digit string. -/
theorem digitsVal_pair (a b : Char) :
    digitsVal [a, b] = 10 * (a.toNat - 48) + (b.toNat - 48) := by
  simp [digitsVal]

/-- A single digit is at most 59. -/
theorem single_le_59 {d : Char} (hd : isDigitChar d) : digitsVal [d] ≤ 59 := by
  rw [isDigitChar_iff] at hd
  rw [digitsVal_singleton]
  omega

/-- A `[0-5][0-9]` pair is at most 59. -/
theorem pair_le_59 {a b : Char} (ha : isZeroToFive a) (hb : isDigitChar b) :
    digitsVal [a, b] ≤ 59 := by
  rw [isZeroToFive_iff] at ha
  rw [isDigitChar_iff] at hb
  rw [digitsVal_pair]
  omega

/-- A two-digit value at most 59 forces the first digit into `[0-5]`. -/
theorem le_59_first {a b : Char} (ha : isDigitChar a)
    (h : digitsVal [a, b] ≤ 59) : isZeroToFive a := by
  rw [isDigitChar_iff] at ha
  rw [digitsVal_pair] at h
  rw [isZeroToFive_iff]
  omega

/-- The anchored regex matcher accepts exactly the strings of the claim's
field-wise description (`M:SS`, `MM:SS`, `H:MM:SS`, `HH:MM:SS` with every
field between 0 and 59). -/
theorem timestampRegexMatch_iff (l : List Char) :
    timestampRegexMatch l = true ↔ specTimestampForm l := by
  constructor
  · intro h
    unfold timestampRegexMatch at h
    split at h
    · rename_i d a b
      simp only [Bool.and_eq_true] at h
      obtain ⟨⟨hd, ha⟩, hb⟩ := h
      have hd' : d ≠ ':' := isDigitChar_ne_colon hd
      have ha' : a ≠ ':' := isDigitChar_ne_colon (isZeroToFive_isDigit ha)
      have hb' : b ≠ ':' := isDigitChar_ne_colon hb
      unfold specTimestampForm
      rw [show splitOnChar ':' [d, ':', a, b] = [[d], [a, b]] by
        simp [splitOnChar, hd', ha', hb']]
      refine ⟨⟨Or.inl rfl, ?_, single_le_59 hd⟩, rfl, ?_, pair_le_59 ha hb⟩
      · intro c hc
        rw [List.mem_singleton] at hc
        subst hc
        exact hd
      · intro c hc
        rcases List.mem_cons.mp hc with hc | hc
        · subst hc; exact isZeroToFive_isDigit ha
        · rw [List.mem_singleton] at hc; subst hc; exact hb
    · rename_i c d a b
      simp only [Bool.and_eq_true] at h
      obtain ⟨⟨⟨hc, hd⟩, ha⟩, hb⟩ := h
      have hc' : c ≠ ':' := isDigitChar_ne_colon (isZeroToFive_isDigit hc)
      have hd' : d ≠ ':' := isDigitChar_ne_colon hd
      have ha' : a ≠ ':' := isDigitChar_ne_colon (isZeroToFive_isDigit ha)
      have hb' : b ≠ ':' := isDigitChar_ne_colon hb
      unfold specTimestampForm
      rw [show splitOnChar ':' [c, d, ':', a, b] = [[c, d], [a, b]] by
        simp [splitOnChar, hc', hd', ha', hb']]
      refine ⟨⟨Or.inr rfl, ?_, pair_le_59 hc hd⟩, rfl, ?_, pair_le_59 ha hb⟩
      · intro x hx
        rcases List.mem_cons.mp hx with hx | hx
        · subst hx; exact isZeroToFive_isDigit hc
        · rw [List.mem_singleton] at hx; subst hx; exact hd
      · intro x hx
        rcases List.mem_cons.mp hx with hx | hx
        · subst hx; exact isZeroToFive_isDigit ha
        · rw [List.mem_singleton] at hx; subst hx; exact hb
    · rename_i d a b e f
      simp only [Bool.and_eq_true] at h
      obtain ⟨⟨⟨⟨hd, ha⟩, hb⟩, he⟩, hf⟩ := h
      have hd' : d ≠ ':' := isDigitChar_ne_colon hd
      have ha' : a ≠ ':' := isDigitChar_ne_colon (isZeroToFive_isDigit ha)
      have hb' : b ≠ ':' := isDigitChar_ne_colon hb
      have he' : e ≠ ':' := isDigitChar_ne_colon (isZeroToFive_isDigit he)
      have hf' : f ≠ ':' := isDigitChar_ne_colon hf
      unfold specTimestampForm
      rw [show splitOnChar ':' [d, ':', a, b, ':', e, f] = [[d], [a, b], [e, f]] by
        simp [splitOnChar, hd', ha', hb', he', hf']]
      refine ⟨⟨Or.inl rfl, ?_, single_le_59 hd⟩,
        ⟨rfl, ?_, pair_le_59 ha hb⟩, rfl, ?_, pair_le_59 he hf⟩
      · intro x hx
        rw [List.mem_singleton] at hx
        subst hx
        exact hd
      · intro x hx
        rcases List.mem_cons.mp hx with hx | hx
        · subst hx; exact isZeroToFive_isDigit ha
        · rw [List.mem_singleton] at hx; subst hx; exact hb
      · intro x hx
        rcases List.mem_cons.mp hx with hx | hx
        · subst hx; exact isZeroToFive_isDigit he
        · rw [List.mem_singleton] at hx; subst hx; exact hf
    · rename_i c d a b e f
      simp only [Bool.and_eq_true] at h
      obtain ⟨⟨⟨⟨⟨hc, hd⟩, ha⟩, hb⟩, he⟩, hf⟩ := h
      have hc' : c ≠ ':' := isDigitChar_ne_colon (isZeroToFive_isDigit hc)
      have hd' : d ≠ ':' := isDigitChar_ne_colon hd
      have ha' : a ≠ ':' := isDigitChar_ne_colon (isZeroToFive_isDigit ha)
      have hb' : b ≠ ':' := isDigitChar_ne_colon hb
      have he' : e ≠ ':' := isDigitChar_ne_colon (isZeroToFive_isDigit he)
      have hf' : f ≠ ':' := isDigitChar_ne_colon hf
      unfold specTimestampForm
      rw [show splitOnChar ':' [c, d, ':', a, b, ':', e, f]
          = [[c, d], [a, b], [e, f]] by
        simp [splitOnChar, hc', hd', ha', hb', he', hf']]
      refine ⟨⟨Or.inr rfl, ?_, pair_le_59 hc hd⟩,
        ⟨rfl, ?_, pair_le_59 ha hb⟩, rfl, ?_, pair_le_59 he hf⟩
      · intro x hx
        rcases List.mem_cons.mp hx with hx | hx
        · subst hx; exact isZeroToFive_isDigit hc
        · rw [List.mem_singleton] at hx; subst hx; exact hd
      · intro x hx
        rcases List.mem_cons.mp hx with hx | hx
        · subst hx; exact isZeroToFive_isDigit ha
        · rw [List.mem_singleton] at hx; subst hx; exact hb
      · intro x hx
        rcases List.mem_cons.mp hx with hx | hx
        · subst hx; exact isZeroToFive_isDigit he
        · rw [List.mem_singleton] at hx; subst hx; exact hf
    · exact absurd h (by simp)
  · intro hs
    unfold specTimestampForm at hs
    rcases hsp : splitOnChar ':' l with _ | ⟨a, _ | ⟨b, _ | ⟨c3, rest⟩⟩⟩
    · rw [hsp] at hs
      exact hs.elim
    · rw [hsp] at hs
      exact hs.elim
    · rw [hsp] at hs
      obtain ⟨⟨hlen, hdig, hval⟩, hlen2, hdig2, hval2⟩ := hs
      have hl : l = a ++ ':' :: b := by
        have hj := intercalate_splitOnChar ':' l
        rw [hsp, intercalate_cons_cons, intercalate_singleton] at hj
        rw [← hj]
        simp
      subst hl
      obtain ⟨p, q, rfl⟩ := List.length_eq_two.mp hlen2
      have hp : isDigitChar p := hdig2 p (by simp)
      have hq : isDigitChar q := hdig2 q (by simp)
      have hp5 : isZeroToFive p := le_59_first hp hval2
      rcases hlen with h1 | h2
      · obtain ⟨x, rfl⟩ := List.length_eq_one.mp h1
        have hx : isDigitChar x := hdig x (by simp)
        show timestampRegexMatch [x, ':', p, q] = true
        simp [timestampRegexMatch, hx, hp5, hq]
      · obtain ⟨x, y, rfl⟩ := List.length_eq_two.mp h2
        have hx : isDigitChar x := hdig x (by simp)
        have hy : isDigitChar y := hdig y (by simp)
        have hx5 : isZeroToFive x := le_59_first hx hval
        show timestampRegexMatch [x, y, ':', p, q] = true
        simp [timestampRegexMatch, hx5, hy, hp5, hq]
    · rcases rest with _ | ⟨d4, rest2⟩
      · rw [hsp] at hs
        obtain ⟨⟨hlen, hdig, hval⟩, ⟨hlen2, hdig2, hval2⟩, hlen3, hdig3, hval3⟩ := hs
        have hl : l = a ++ ':' :: (b ++ ':' :: c3) := by
          have hj := intercalate_splitOnChar ':' l
          rw [hsp, intercalate_cons_cons, intercalate_cons_cons,
            intercalate_singleton] at hj
          rw [← hj]
          simp
        subst hl
        obtain ⟨p, q, rfl⟩ := List.length_eq_two.mp hlen2
        obtain ⟨u, v, rfl⟩ := List.length_eq_two.mp hlen3
        have hp : isDigitChar p := hdig2 p (by simp)
        have hq : isDigitChar q := hdig2 q (by simp)
        have hu : isDigitChar u := hdig3 u (by simp)
        have hv : isDigitChar v := hdig3 v (by simp)
        have hp5 : isZeroToFive p := le_59_first hp hval2
        have hu5 : isZeroToFive u := le_59_first hu hval3
        rcases hlen with h1 | h2
        · obtain ⟨x, rfl⟩ := List.length_eq_one.mp h1
          have hx : isDigitChar x := hdig x (by simp)
          show timestampRegexMatch [x, ':', p, q, ':', u, v] = true
          simp [timestampRegexMatch, hx, hp5, hq, hu5, hv]
        · obtain ⟨x, y, rfl⟩ := List.length_eq_two.mp h2
          have hx : isDigitChar x := hdig x (by simp)
          have hy : isDigitChar y := hdig y (by simp)
          have hx5 : isZeroToFive x := le_59_first hx hval
          show timestampRegexMatch [x, y, ':', p, q, ':', u, v] = true
          simp [timestampRegexMatch, hx5, hy, hp5, hq, hu5, hv]
      · rw [hsp] at hs
        exact hs.elim

/-- C6: `valid_timestamp` raises `ValidationError` if and only if the input
string is empty or, after truncating at the first `'.'`, it does not match
one of the forms `M:SS`, `MM:SS`, `H:MM:SS`, `HH:MM:SS` with each field
between 0 and 59; otherwise it returns the truncated timestamp.  In
particular, bare-second digit strings such as `"5"` or `"55"` are
rejected. -/
theorem valid_timestamp_spec (s : List Char) :
    (valid_timestamp s = .error .validationError ↔
      s = [] ∨ ¬ specTimestampForm (s.takeWhile (fun x => x != '.'))) ∧
    (s ≠ [] → specTimestampForm (s.takeWhile (fun x => x != '.')) →
      valid_timestamp s = .ok (s.takeWhile (fun x => x != '.'))) ∧
    (s ≠ [] → (∀ c ∈ s, isDigitChar c) →
      valid_timestamp s = .error .validationError) := by
  have htrunc : (splitOnChar '.' s).headD [] = s.takeWhile (fun x => x != '.') :=
    splitOnChar_head_takeWhile '.' s
  by_cases hse : s = []
  · subst hse
    refine ⟨by simp [valid_timestamp], fun h => absurd rfl h, fun h => absurd rfl h⟩
  · have hne : s.isEmpty = false := by
      cases s with
      | nil => exact absurd rfl hse
      | cons a t => rfl
    refine ⟨?_, ?_, ?_⟩
    · simp only [valid_timestamp, hne, Bool.false_eq_true, if_false, htrunc]
      by_cases hm : timestampRegexMatch (s.takeWhile (fun x => x != '.')) = true
      · rw [if_pos hm]
        simp [hse, (timestampRegexMatch_iff _).mp hm]
      · rw [if_neg hm]
        have hnospec : ¬ specTimestampForm (s.takeWhile (fun x => x != '.')) :=
          fun hspec => hm ((timestampRegexMatch_iff _).mpr hspec)
        simp [hnospec]
    · intro _ hspec
      have hm := (timestampRegexMatch_iff _).mpr hspec
      simp only [valid_timestamp, hne, Bool.false_eq_true, if_false, htrunc,
        if_pos hm]
    · intro _ hdigits
      have hnodot : '.' ∉ s := fun hmem => isDigitChar_ne_dot (hdigits _ hmem) rfl
      have hnocolon : ':' ∉ s := fun hmem => isDigitChar_ne_colon (hdigits _ hmem) rfl
      have ht : s.takeWhile (fun x => x != '.') = s := by
        rw [← htrunc, splitOnChar_of_not_mem hnodot]
        rfl
      have hnospec : ¬ specTimestampForm s := by
        unfold specTimestampForm
        rw [splitOnChar_of_not_mem hnocolon]
        exact fun h => h
      have hm : ¬ timestampRegexMatch (s.takeWhile (fun x => x != '.')) = true := by
        rw [ht]
        exact fun hmm => hnospec ((timestampRegexMatch_iff s).mp hmm)
      simp only [valid_timestamp, hne, Bool.false_eq_true, if_false, htrunc,
        if_neg hm]

/-- C6 witness: the characterization at the accepted timestamp `"1:01"` and
the rejected bare-seconds string `"55"`. -/
theorem valid_timestamp_spec_witness :
    valid_timestamp "1:01".data = .ok "1:01".data ∧
    valid_timestamp "55".data = .error .validationError := by
  constructor
  · have hspec : specTimestampForm ("1:01".data.takeWhile (fun x => x != '.')) := by
      show specTimestampForm ['1', ':', '0', '1']
      exact ⟨⟨Or.inl rfl, by decide, by decide⟩, rfl, by decide, by decide⟩
    have h := (valid_timestamp_spec "1:01".data).2.1 (by decide) hspec
    rw [h]
    exact congrArg Except.ok (by decide)
  · exact (valid_timestamp_spec "55".data).2.2 (by decide) (by decide)

/-- `valid_filename` accepts the `"_vxt"` tag. -/
theorem valid_filename_vxt : valid_filename "_vxt".data = .ok "_vxt".data := rfl

/-- `append_enumeration` with the `"_vxt"` tag produces `vxtAppend`. -/
theorem append_enumeration_vxt (i : ℕ) (hi : 1 ≤ i) :
    append_enumeration i (some "_vxt".data) = .ok (vxtAppend i) := by
  have hlt : ¬ i < 1 := by omega
  by_cases hi1 : i ≤ 1
  · have : i = 1 := by omega
    subst this
    rfl
  · have hgt : i > 1 := by omega
    have hv : valid_filename ['_', 'v', 'x', 't'] = .ok ['_', 'v', 'x', 't'] := rfl
    simp only [append_enumeration, hlt, if_false, bind, Except.bind, hv, vxtAppend]
    rw [if_pos hgt, if_neg hi1]
    simp

/-- `vxtAppend` is non-empty. -/
theorem vxtAppend_length_pos (i : ℕ) : 1 ≤ (vxtAppend i).length := by
  by_cases h : i ≤ 1
  · simp [vxtAppend, h]
  · simp [vxtAppend, h, List.length_append]

/-- `vxtAppend` is injective on indices at least 1. -/
theorem vxtAppend_inj : ∀ {i j : ℕ}, 1 ≤ i → 1 ≤ j →
    vxtAppend i = vxtAppend j → i = j := by
  intro i j hi hj h
  have hnat_i := List.length_pos.mpr (natChars_ne_nil i)
  have hnat_j := List.length_pos.mpr (natChars_ne_nil j)
  unfold vxtAppend at h
  by_cases hi1 : i ≤ 1 <;> by_cases hj1 : j ≤ 1
  · omega
  · rw [if_pos hi1, if_neg hj1] at h
    have hlen := congrArg List.length h
    simp only [List.length_append, List.length_cons, List.length_nil] at hlen
    omega
  · rw [if_neg hi1, if_pos hj1] at h
    have hlen := congrArg List.length h
    simp only [List.length_append, List.length_cons, List.length_nil] at hlen
    omega
  · rw [if_neg hi1, if_neg hj1] at h
    obtain ⟨h1, -⟩ := List.append_inj' h rfl
    have h2 := List.append_cancel_left h1
    exact natChars_inj h2

/-- Enumeration candidates at distinct indices are distinct paths. -/
theorem enumCandidate_vxt_inj (dest : FsPath) {i j : ℕ} (hi : 1 ≤ i)
    (hj : 1 ≤ j) (h : enumCandidate dest (vxtAppend i) = enumCandidate dest (vxtAppend j)) :
    i = j := by
  have hstem := congrArg FsPath.stem h
  simp only [enumCandidate] at hstem
  exact vxtAppend_inj hi hj (List.append_cancel_left hstem)

/-- On a finite filesystem some enumeration index below `fs.length + 2` is
free. -/
theorem exists_free_index (fs : List FsPath) (dest : FsPath) :
    ∃ j, 1 ≤ j ∧ j < 1 + (fs.length + 1) ∧
      enumCandidate dest (vxtAppend j) ∉ fs := by
  by_contra hall
  push_neg at hall
  have hnd : ((List.range (fs.length + 1)).map
      (fun t => enumCandidate dest (vxtAppend (t + 1)))).Nodup := by
    refine List.Nodup.map ?_ (List.nodup_range _)
    intro x y hxy
    have := enumCandidate_vxt_inj dest (by omega) (by omega) hxy
    omega
  have hsub : ((List.range (fs.length + 1)).map
      (fun t => enumCandidate dest (vxtAppend (t + 1)))) ⊆ fs := by
    intro x hx
    rw [List.mem_map] at hx
    obtain ⟨t, ht, rfl⟩ := hx
    rw [List.mem_range] at ht
    exact hall (t + 1) (by omega) (by omega)
  have hle := (List.Nodup.subperm hnd hsub).length_le
  simp [List.length_map, List.length_range] at hle

/-- The `while` loop of `enumerate_filepath` (with the `"_vxt"` tag) returns
the candidate at the least free index, given enough fuel to reach one. -/
theorem enumFrom_spec (fs : List FsPath) (dest : FsPath) :
    ∀ (fuel i : ℕ), 1 ≤ i →
      (∃ j, i ≤ j ∧ j < i + fuel ∧ enumCandidate dest (vxtAppend j) ∉ fs) →
      ∃ m, i ≤ m ∧ enumCandidate dest (vxtAppend m) ∉ fs ∧
        (∀ j, i ≤ j → j < m → enumCandidate dest (vxtAppend j) ∈ fs) ∧
        enumFrom fs dest (some "_vxt".data) fuel i
          = .ok (enumCandidate dest (vxtAppend m)) := by
  intro fuel
  induction fuel with
  | zero =>
    intro i hi hex
    obtain ⟨j, hj1, hj2, -⟩ := hex
    omega
  | succ fuel ih =>
    intro i hi hex
    have happ := append_enumeration_vxt i hi
    by_cases hmem : enumCandidate dest (vxtAppend i) ∈ fs
    · obtain ⟨j, hj1, hj2, hj3⟩ := hex
      have hji : j ≠ i := fun hji => by
        subst hji
        exact hj3 hmem
      obtain ⟨m, hm1, hm2, hm3, hm4⟩ :=
        ih (i + 1) (by omega) ⟨j, by omega, by omega, hj3⟩
      refine ⟨m, by omega, hm2, ?_, ?_⟩
      · intro j' hj'1 hj'2
        rcases Nat.eq_or_lt_of_le hj'1 with heq | hgt
        · rw [← heq]
          exact hmem
        · exact hm3 j' (by omega) hj'2
      · simp only [enumFrom, happ, bind, Except.bind]
        rw [if_pos hmem]
        exact hm4
    · refine ⟨i, le_refl i, hmem, fun j h1 h2 => absurd (lt_of_le_of_lt h1 h2)
        (lt_irrefl _), ?_⟩
      simp only [enumFrom, happ, bind, Except.bind]
      rw [if_neg hmem]
      rfl

/-- C8 counterexample: with an empty filesystem, no overwrite, and suffix
`"mp3"`, `prepare_destpath` returns the computed destination `video.mp3`
unchanged — a path whose stem carries no `"_vxt"` tag at all, contradicting
the claim that every non-overwrite result is produced by appending the
`"_vxt"` tag (with or without an index). -/
theorem prepare_destpath_counterexample :
    prepare_destpath [] ⟨["v".data], "video".data, ".mp4".data⟩ none none
        (some "mp3".data) none
      = .ok ⟨["v".data], "video".data, ".mp3".data⟩ ∧
    ¬ claimTaggedResult ⟨["v".data], "video".data, ".mp3".data⟩
        ⟨["v".data], "video".data, ".mp3".data⟩ := by
  constructor
  · rfl
  · rintro ⟨i, hi, heq⟩
    have hstem := congrArg FsPath.stem heq
    simp only [enumCandidate] at hstem
    have hlen := congrArg List.length hstem
    rw [List.length_append] at hlen
    have hpos := vxtAppend_length_pos i
    omega

/-- C8 (amended): with a `None` suffix `prepare_destpath` raises
`PreparationError`.  With a suffix: in the overwrite case (overwrite
requested and the computed destination differs from the source video) the
computed destination is returned even if it exists; otherwise, if the
computed destination does not exist it is returned unchanged (with no
`"_vxt"` tag), and if it exists the result is the first free candidate of
the enumeration — the stem with `"_vxt"` appended for index 1, or with
`"_vxt (index)"` for the least index ≥ 2 whose candidate avoids every
existing file. -/
theorem prepare_destpath_spec (fs : List FsPath) (vid : FsPath)
    (rf : Option (List Char)) (rd : Option (List (List Char)))
    (ps : List Char) (ow : Option Bool) :
    (prepare_destpath fs vid rf rd none ow = .error .preparationError) ∧
    ((ow = some true ∧ destCandidate vid rf rd ps ≠ vid) →
      prepare_destpath fs vid rf rd (some ps) ow
        = .ok (destCandidate vid rf rd ps)) ∧
    (¬(ow = some true ∧ destCandidate vid rf rd ps ≠ vid) →
      (destCandidate vid rf rd ps ∉ fs →
        prepare_destpath fs vid rf rd (some ps) ow
          = .ok (destCandidate vid rf rd ps)) ∧
      (destCandidate vid rf rd ps ∈ fs →
        ∃ m, 1 ≤ m ∧
          enumCandidate (destCandidate vid rf rd ps) (vxtAppend m) ∉ fs ∧
          (∀ j, 1 ≤ j → j < m →
            enumCandidate (destCandidate vid rf rd ps) (vxtAppend j) ∈ fs) ∧
          prepare_destpath fs vid rf rd (some ps) ow
            = .ok (enumCandidate (destCandidate vid rf rd ps) (vxtAppend m)))) := by
  refine ⟨rfl, ?_, ?_⟩
  · intro hcond
    simp only [prepare_destpath]
    rw [if_pos hcond]
  · intro hcond
    constructor
    · intro hnot
      simp only [prepare_destpath]
      rw [if_neg hcond]
      simp only [enumerate_filepath]
      rw [if_neg hnot]
    · intro hmem
      obtain ⟨j, hj1, hj2, hj3⟩ :=
        exists_free_index fs (destCandidate vid rf rd ps)
      obtain ⟨m, hm1, hm2, hm3, hm4⟩ :=
        enumFrom_spec fs (destCandidate vid rf rd ps) (fs.length + 1) 1
          (le_refl 1) ⟨j, hj1, hj2, hj3⟩
      refine ⟨m, hm1, hm2, hm3, ?_⟩
      simp only [prepare_destpath]
      rw [if_neg hcond]
      simp only [enumerate_filepath]
      rw [if_pos hmem]
      exact hm4

/-- C8 witness: the spec applied in the overwrite branch — overwriting
allowed and the destination (`video.mp3`) differs from the source
(`video.mp4`), so the destination is returned directly. -/
theorem prepare_destpath_spec_witness :
    prepare_destpath [] ⟨["v".data], "video".data, ".mp4".data⟩ none none
        (some "mp3".data) (some true)
      = .ok ⟨["v".data], "video".data, ".mp3".data⟩ := by
  have h := (prepare_destpath_spec [] ⟨["v".data], "video".data, ".mp4".data⟩
    none none "mp3".data (some true)).2.1 ⟨rfl, by decide⟩
  rw [h]
  rfl

end Videoxt
